import Mathlib

/-!
Verification of the ProjectPrayag track-consolidation and lane-prediction core.

The Python source is shallowly embedded:
  * `RoadMapper` (lane_processing.py, config.py): polyline smoothing, the
    Hausdorff-based shape distance, greedy track clustering, endpoint
    snapping and track filtering, over exact rational coordinates.
    The source compares Euclidean distances only against nonnegative
    thresholds, or takes max/min of them, so distances are represented by
    their squares (x ↦ x^2 is strictly monotone on nonnegatives): a
    comparison `dist < 15.0` is embedded as `sqDist < 225`, and the shape
    distance is the squared Hausdorff distance, which is zero / infinite /
    symmetric exactly when the Euclidean one is.
  * `Smoother` (tracker.py, smooth_predictions): temporal smoothing of
    prediction lists, over rational probabilities.
  * `Predictor` (vehicle_predictor.py) and `LaneMgr` (lane_manager.py):
    real-valued geometry (these need square roots, hence `ℝ`).
-/

set_option maxHeartbeats 1000000

namespace RoadMapper

/-- A 2D point in image coordinates; exact rationals stand in for the
source's floating-point values. -/
abbrev Point := ℚ × ℚ

/-- A track / polyline: ordered list of points. -/
abbrev Track := List Point

/-- `config.SMOOTHING_WINDOW_SIZE = 5`. -/
def SMOOTHING_WINDOW_SIZE : ℕ := 5

/-- `config.MIN_TRACK_POINTS = 5`. -/
def MIN_TRACK_POINTS : ℕ := 5

/-- `config.MIN_TRACK_DURATION_SECONDS = 3.0`. -/
def MIN_TRACK_DURATION_SECONDS : ℚ := 3

/-- `config.HAUSDORFF_THRESHOLD = 20.0`, squared (see module comment). -/
def HAUSDORFF_THRESHOLD_SQ : ℚ := 400

/-- `config.ENDPOINT_SNAP_TOLERANCE = 15.0`, squared (see module comment). -/
def ENDPOINT_SNAP_TOLERANCE_SQ : ℚ := 225

/-- Squared Euclidean distance between two points. -/
def sqDist (p q : Point) : ℚ := (p.1 - q.1) ^ 2 + (p.2 - q.2) ^ 2

theorem sqDist_nonneg (p q : Point) : 0 ≤ sqDist p q := by
  unfold sqDist; positivity

theorem sqDist_self (p : Point) : sqDist p p = 0 := by
  simp [sqDist]

theorem sqDist_comm (p q : Point) : sqDist p q = sqDist q p := by
  unfold sqDist; ring

/-- `lane_processing.smooth_polyline`: centered moving average.  For index
`i` it averages the input slice `coords[start:end]` with
`start = max(0, i - window_size // 2)` (ℕ-subtraction is that max) and
`end = min(len(coords), i + window_size // 2 + 1)`; `np.mean(·, axis=0)`
is the componentwise mean.  Inputs shorter than the window are returned
unchanged. -/
def smooth_polyline (points : List Point) (window_size : ℕ := SMOOTHING_WINDOW_SIZE) :
    List Point :=
  if points.length < window_size then points
  else
    (List.range points.length).map (fun i =>
      let start := i - window_size / 2
      let stop := min points.length (i + window_size / 2 + 1)
      let window := (points.drop start).take (stop - start)
      ((window.map Prod.fst).sum / (window.length : ℚ),
       (window.map Prod.snd).sum / (window.length : ℚ)))

theorem length_slice (l : List Point) (s k : ℕ) (h : s + k ≤ l.length) :
    ((l.drop s).take k).length = k := by
  simp only [List.length_take, List.length_drop]
  omega

theorem slice_map_sum (f : Point → ℚ) :
    ∀ (k s : ℕ) (l : List Point), s + k ≤ l.length →
      (((l.drop s).take k).map f).sum =
        ∑ j ∈ Finset.range k, f (l.getD (s + j) (0, 0)) := by
  intro k
  induction k with
  | zero => intro s l _; simp
  | succ k ih =>
    intro s l h
    have hs : s < l.length := by omega
    have hdrop : l.drop s = l[s] :: l.drop (s + 1) := List.drop_eq_getElem_cons hs
    have hgd : l.getD (s + 0) (0, 0) = l[s] := by
      simp [List.getD, List.getElem?_eq_getElem hs]
    rw [hdrop]
    simp only [List.take_succ_cons, List.map_cons, List.sum_cons]
    rw [ih (s + 1) l (by omega)]
    rw [Finset.sum_range_succ' (fun j => f (l.getD (s + j) (0, 0))) k]
    have : ∀ j, l.getD (s + (j + 1)) (0, 0) = l.getD (s + 1 + j) (0, 0) := by
      intro j; congr 1; omega
    simp only [this, hgd]
    ring

/-- C7: `smooth_polyline` returns inputs shorter than the window unchanged;
otherwise the output has the same length as the input and the output point
at index `i` is the arithmetic mean (componentwise, hence a convex
combination) of the input points with indices in
`[max(0, i - w/2), min(n, i + w/2 + 1))`. -/
theorem smooth_polyline_spec (points : List Point) (w : ℕ) :
    (points.length < w → smooth_polyline points w = points) ∧
    (w ≤ points.length →
      (smooth_polyline points w).length = points.length ∧
      ∀ i, i < points.length →
        (smooth_polyline points w)[i]? =
          some ((∑ j ∈ Finset.Ico (i - w / 2) (min points.length (i + w / 2 + 1)),
                    (points.getD j (0, 0)).1) /
                  ((min points.length (i + w / 2 + 1) - (i - w / 2) : ℕ) : ℚ),
                (∑ j ∈ Finset.Ico (i - w / 2) (min points.length (i + w / 2 + 1)),
                    (points.getD j (0, 0)).2) /
                  ((min points.length (i + w / 2 + 1) - (i - w / 2) : ℕ) : ℚ))) := by
  constructor
  · intro h
    simp [smooth_polyline, h]
  · intro hw
    have hnl : ¬ points.length < w := not_lt.2 hw
    simp only [smooth_polyline, if_neg hnl]
    refine ⟨by simp, ?_⟩
    intro i hi
    have hsl : i - w / 2 ≤ i := Nat.sub_le _ _
    have histop : i < min points.length (i + w / 2 + 1) := lt_min hi (by omega)
    have hk : (i - w / 2) + (min points.length (i + w / 2 + 1) - (i - w / 2)) ≤
        points.length := by omega
    rw [List.getElem?_map]
    rw [List.getElem?_range hi]
    simp only [Option.map_some']
    have hlen := length_slice points (i - w / 2)
      (min points.length (i + w / 2 + 1) - (i - w / 2)) hk
    have hsum1 := slice_map_sum Prod.fst
      (min points.length (i + w / 2 + 1) - (i - w / 2)) (i - w / 2) points hk
    have hsum2 := slice_map_sum Prod.snd
      (min points.length (i + w / 2 + 1) - (i - w / 2)) (i - w / 2) points hk
    rw [Finset.sum_Ico_eq_sum_range, Finset.sum_Ico_eq_sum_range]
    rw [hlen, hsum1, hsum2]

/-- Concrete five-point polyline used by witnesses. -/
def P7 : List Point := [(0, 0), (10, 0), (0, 10), (10, 10), (4, 4)]

theorem smooth_polyline_spec_witness :
    5 ≤ P7.length ∧ (smooth_polyline P7 5).length = P7.length :=
  ⟨by decide, ((smooth_polyline_spec P7 5).2 (by decide)).1⟩

/-- Minimum of a list of rationals (`min(...)` over a nonempty array in the
source; `0` is an arbitrary value for the impossible empty case). -/
def listMin : List ℚ → ℚ
  | [] => 0
  | x :: xs => xs.foldl min x

/-- Maximum of a list of rationals. -/
def listMax : List ℚ → ℚ
  | [] => 0
  | x :: xs => xs.foldl max x

theorem foldl_min_le_init (xs : List ℚ) : ∀ a : ℚ, xs.foldl min a ≤ a := by
  induction xs with
  | nil => intro a; simp
  | cons x xs ih =>
    intro a
    calc (x :: xs).foldl min a = xs.foldl min (min a x) := rfl
    _ ≤ min a x := ih (min a x)
    _ ≤ a := min_le_left _ _

theorem foldl_min_le_of_mem (xs : List ℚ) (x : ℚ) (hx : x ∈ xs) :
    ∀ a : ℚ, xs.foldl min a ≤ x := by
  induction xs with
  | nil => cases hx
  | cons y ys ih =>
    intro a
    rcases List.mem_cons.1 hx with h | h
    · subst h
      calc (x :: ys).foldl min a = ys.foldl min (min a x) := rfl
      _ ≤ min a x := foldl_min_le_init ys _
      _ ≤ x := min_le_right _ _
    · exact ih h (min a y)

theorem le_foldl_min (xs : List ℚ) (c : ℚ) :
    ∀ a : ℚ, c ≤ a → (∀ x ∈ xs, c ≤ x) → c ≤ xs.foldl min a := by
  induction xs with
  | nil => intro a ha _; simpa using ha
  | cons y ys ih =>
    intro a ha h
    exact ih (min a y) (le_min ha (h y (by simp))) (fun x hx => h x (by simp [hx]))

theorem le_foldl_max_init (xs : List ℚ) : ∀ a : ℚ, a ≤ xs.foldl max a := by
  induction xs with
  | nil => intro a; simp
  | cons x xs ih =>
    intro a
    calc a ≤ max a x := le_max_left _ _
    _ ≤ xs.foldl max (max a x) := ih (max a x)
    _ = (x :: xs).foldl max a := rfl

theorem le_foldl_max_of_mem (xs : List ℚ) (x : ℚ) (hx : x ∈ xs) :
    ∀ a : ℚ, x ≤ xs.foldl max a := by
  induction xs with
  | nil => cases hx
  | cons y ys ih =>
    intro a
    rcases List.mem_cons.1 hx with h | h
    · subst h
      calc x ≤ max a x := le_max_right _ _
      _ ≤ ys.foldl max (max a x) := le_foldl_max_init ys _
    · exact ih h (max a y)

theorem foldl_max_le (xs : List ℚ) (c : ℚ) :
    ∀ a : ℚ, a ≤ c → (∀ x ∈ xs, x ≤ c) → xs.foldl max a ≤ c := by
  induction xs with
  | nil => intro a ha _; simpa using ha
  | cons y ys ih =>
    intro a ha h
    exact ih (max a y) (max_le ha (h y (by simp))) (fun x hx => h x (by simp [hx]))

theorem listMin_le_of_mem (l : List ℚ) (x : ℚ) (hx : x ∈ l) : listMin l ≤ x := by
  cases l with
  | nil => cases hx
  | cons y ys =>
    rcases List.mem_cons.1 hx with h | h
    · subst h; exact foldl_min_le_init ys x
    · exact foldl_min_le_of_mem ys x h y

theorem le_listMin (l : List ℚ) (c : ℚ) (hne : l ≠ []) (h : ∀ x ∈ l, c ≤ x) :
    c ≤ listMin l := by
  cases l with
  | nil => exact absurd rfl hne
  | cons y ys =>
    exact le_foldl_min ys c y (h y (by simp)) (fun x hx => h x (by simp [hx]))

theorem le_listMax_of_mem (l : List ℚ) (x : ℚ) (hx : x ∈ l) : x ≤ listMax l := by
  cases l with
  | nil => cases hx
  | cons y ys =>
    rcases List.mem_cons.1 hx with h | h
    · subst h; exact le_foldl_max_init ys x
    · exact le_foldl_max_of_mem ys x h y

theorem listMax_le (l : List ℚ) (c : ℚ) (hne : l ≠ []) (h : ∀ x ∈ l, x ≤ c) :
    listMax l ≤ c := by
  cases l with
  | nil => exact absurd rfl hne
  | cons y ys =>
    exact foldl_max_le ys c y (h y (by simp)) (fun x hx => h x (by simp [hx]))

/-- The directed Hausdorff distance `h(A→B) = max over a of min over b of
dist(a,b)` computed by `scipy.spatial.distance.directed_hausdorff` (its
index-shuffling early-break algorithm returns exactly this max-min value),
in the squared representation. -/
def directedHausdorffSq (A B : List Point) : ℚ :=
  listMax (A.map (fun a => listMin (B.map (fun b => sqDist a b))))

/-- `lane_processing.calculate_hausdorff_distance`: `float('inf')` when
either polyline has fewer than 2 points is embedded as `⊤` in
`WithTop ℚ`; otherwise `max(h(A→B), h(B→A))` (squared representation). -/
def calculate_hausdorff_distance (line1 line2 : List Point) : WithTop ℚ :=
  if line1.length < 2 ∨ line2.length < 2 then ⊤
  else ((max (directedHausdorffSq line1 line2) (directedHausdorffSq line2 line1) : ℚ) :
    WithTop ℚ)

theorem directedHausdorffSq_self (A : List Point) (h : A ≠ []) :
    directedHausdorffSq A A = 0 := by
  have hzero : ∀ y ∈ A.map (fun a => listMin (A.map (fun b => sqDist a b))), y = 0 := by
    intro y hy
    rcases List.mem_map.1 hy with ⟨a, ha, rfl⟩
    apply le_antisymm
    · have hm : sqDist a a ∈ A.map (fun b => sqDist a b) :=
        List.mem_map.2 ⟨a, ha, rfl⟩
      calc listMin (A.map (fun b => sqDist a b)) ≤ sqDist a a :=
            listMin_le_of_mem _ _ hm
      _ = 0 := sqDist_self a
    · apply le_listMin
      · simpa using h
      · intro x hx
        rcases List.mem_map.1 hx with ⟨b, _, rfl⟩
        exact sqDist_nonneg a b
  rcases List.exists_mem_of_ne_nil A h with ⟨a, ha⟩
  have hmem : listMin (A.map (fun b => sqDist a b)) ∈
      A.map (fun a => listMin (A.map (fun b => sqDist a b))) :=
    List.mem_map.2 ⟨a, ha, rfl⟩
  apply le_antisymm
  · apply listMax_le _ _ (by simpa using h)
    intro x hx; exact le_of_eq (hzero x hx)
  · calc (0 : ℚ) = listMin (A.map (fun b => sqDist a b)) := (hzero _ hmem).symm
    _ ≤ listMax (A.map (fun a => listMin (A.map (fun b => sqDist a b)))) :=
        le_listMax_of_mem _ _ hmem

/-- C8: the shape distance is symmetric; it is `0` on any polyline with at
least two points paired with itself; and it is `+∞` (`⊤`) whenever either
argument has fewer than two points. -/
theorem hausdorff_distance_spec (A B : List Point) :
    calculate_hausdorff_distance A B = calculate_hausdorff_distance B A ∧
    (2 ≤ A.length → calculate_hausdorff_distance A A = 0) ∧
    (A.length < 2 ∨ B.length < 2 → calculate_hausdorff_distance A B = ⊤) := by
  refine ⟨?_, ?_, ?_⟩
  · by_cases h1 : A.length < 2 <;> by_cases h2 : B.length < 2 <;>
      simp [calculate_hausdorff_distance, h1, h2, max_comm]
  · intro h
    have hne : A ≠ [] := by
      intro hA; rw [hA] at h; simp at h
    have hlt : ¬ (A.length < 2 ∨ A.length < 2) := by omega
    rw [calculate_hausdorff_distance, if_neg hlt, directedHausdorffSq_self A hne]
    simp
  · intro h
    simp [calculate_hausdorff_distance, h]

theorem hausdorff_distance_spec_witness :
    2 ≤ ([((0 : ℚ), (0 : ℚ)), (1, 0)] : List Point).length ∧
    calculate_hausdorff_distance [((0 : ℚ), (0 : ℚ)), (1, 0)] [((0 : ℚ), (0 : ℚ)), (1, 0)] = 0 ∧
    (([((0 : ℚ), (0 : ℚ)), (1, 0)] : List Point).length < 2 ∨
      ([((5 : ℚ), (5 : ℚ))] : List Point).length < 2) ∧
    calculate_hausdorff_distance [((0 : ℚ), (0 : ℚ)), (1, 0)] [((5 : ℚ), (5 : ℚ))] = ⊤ :=
  ⟨by decide,
   (hausdorff_distance_spec [((0 : ℚ), (0 : ℚ)), (1, 0)] [((0 : ℚ), (0 : ℚ)), (1, 0)]).2.1
     (by decide),
   Or.inr (by decide),
   (hausdorff_distance_spec [((0 : ℚ), (0 : ℚ)), (1, 0)] [((5 : ℚ), (5 : ℚ))]).2.2
     (Or.inr (by decide))⟩

/-- The boolean similarity test used by the clustering scan: the candidate
index is not yet assigned and its shape distance to the cluster seed is
below the threshold. -/
def simPred (seed : Track) (thr : ℚ) (used : List ℕ) (jt : ℕ × Track) : Bool :=
  decide (jt.1 ∉ used ∧ calculate_hausdorff_distance seed jt.2 < (thr : WithTop ℚ))

/-- The inner scan of `lane_processing.merge_similar_tracks`: for a fixed
seed `track1`, walk the later (index, track) pairs, skip indices already
in `used`, collect tracks within the threshold and mark their indices
used.  Returns the collected tracks (in scan order) and the updated
`used`. -/
def collectSimilar (seed : Track) (thr : ℚ) :
    List (ℕ × Track) → List ℕ → List Track × List ℕ
  | [], used => ([], used)
  | (j, t) :: rest, used =>
    if j ∈ used then collectSimilar seed thr rest used
    else if calculate_hausdorff_distance seed t < (thr : WithTop ℚ) then
      (t :: (collectSimilar seed thr rest (j :: used)).1,
       (collectSimilar seed thr rest (j :: used)).2)
    else collectSimilar seed thr rest used

/-- The outer loop of `merge_similar_tracks`: walk the enumerated tracks;
an unused index seeds a cluster (`similar_tracks = [track1] + collected`);
a single-member cluster emits `track1` itself, a multi-member cluster
emits the re-smoothed concatenation of all member points. -/
def mergeGo (thr : ℚ) : List (ℕ × Track) → List ℕ → List Track
  | [], _ => []
  | (i, t) :: rest, used =>
    if i ∈ used then mergeGo thr rest used
    else
      (if (collectSimilar t thr rest (i :: used)).1 = [] then t
       else smooth_polyline (t ++ (collectSimilar t thr rest (i :: used)).1.flatten)
         SMOOTHING_WINDOW_SIZE) ::
        mergeGo thr rest (collectSimilar t thr rest (i :: used)).2

/-- `lane_processing.merge_similar_tracks` (thresholds in the squared
representation, 20.0^2 = 400). -/
def merge_similar_tracks (tracks : List Track) (thr : ℚ := HAUSDORFF_THRESHOLD_SQ) :
    List Track :=
  if tracks.length ≤ 1 then tracks
  else mergeGo thr tracks.enum []

/-- Declarative clustering: the cluster seeded at an unused index `i`
consists of the seed and exactly the later not-yet-assigned tracks whose
shape distance to the seed is below the threshold; those indices are then
assigned. -/
def clusters (thr : ℚ) : List (ℕ × Track) → List ℕ → List (Track × List Track)
  | [], _ => []
  | (i, t) :: rest, used =>
    if i ∈ used then clusters thr rest used
    else
      (t, (rest.filter (simPred t thr used)).map Prod.snd) ::
        clusters thr rest (i :: used ++ (rest.filter (simPred t thr used)).map Prod.fst)

theorem simPred_congr (seed : Track) (thr : ℚ) (u1 u2 : List ℕ) (jt : ℕ × Track)
    (h : jt.1 ∈ u1 ↔ jt.1 ∈ u2) : simPred seed thr u1 jt = simPred seed thr u2 jt := by
  unfold simPred
  exact decide_eq_decide.2 (and_congr_left' (not_congr h))

theorem clusters_congr (thr : ℚ) :
    ∀ (rest : List (ℕ × Track)) (u1 u2 : List ℕ), (∀ x, x ∈ u1 ↔ x ∈ u2) →
      clusters thr rest u1 = clusters thr rest u2 := by
  intro rest
  induction rest with
  | nil => intro u1 u2 _; rfl
  | cons hd tl ih =>
    intro u1 u2 h
    obtain ⟨i, t⟩ := hd
    by_cases hi : i ∈ u1
    · rw [clusters, clusters, if_pos hi, if_pos ((h i).1 hi)]
      exact ih u1 u2 h
    · have hi2 : i ∉ u2 := fun hc => hi ((h i).2 hc)
      rw [clusters, clusters, if_neg hi, if_neg hi2]
      have hfe : tl.filter (simPred t thr u1) = tl.filter (simPred t thr u2) :=
        List.filter_congr (fun jt _ => simPred_congr t thr u1 u2 jt (h jt.1))
      rw [hfe]
      congr 1
      apply ih
      intro x
      simp only [List.mem_cons, List.mem_append]
      rw [h x]

theorem collectSimilar_eq (seed : Track) (thr : ℚ) :
    ∀ (rest : List (ℕ × Track)) (used : List ℕ), (rest.map Prod.fst).Nodup →
      collectSimilar seed thr rest used =
        ((rest.filter (simPred seed thr used)).map Prod.snd,
         ((rest.filter (simPred seed thr used)).map Prod.fst).reverse ++ used) := by
  intro rest
  induction rest with
  | nil => intro used _; simp [collectSimilar]
  | cons hd tl ih =>
    intro used hnd
    obtain ⟨j, t⟩ := hd
    rw [List.map_cons] at hnd
    have hj : j ∉ tl.map Prod.fst := (List.nodup_cons.1 hnd).1
    have hndtl : (tl.map Prod.fst).Nodup := (List.nodup_cons.1 hnd).2
    have hshift : ∀ jt ∈ tl, simPred seed thr (j :: used) jt = simPred seed thr used jt := by
      intro jt hjt
      apply simPred_congr
      have : jt.1 ≠ j := by
        intro he
        exact hj (List.mem_map.2 ⟨jt, hjt, he⟩)
      simp [List.mem_cons, this]
    by_cases hmem : j ∈ used
    · have hp : simPred seed thr used (j, t) = false := by
        simp [simPred, hmem]
      rw [collectSimilar, if_pos hmem, List.filter_cons, hp]
      simpa using ih used hndtl
    · by_cases hdist : calculate_hausdorff_distance seed t < (thr : WithTop ℚ)
      · have hp : simPred seed thr used (j, t) = true := by
          simp [simPred, hmem, hdist]
        rw [collectSimilar, if_neg hmem, if_pos hdist, List.filter_cons, hp]
        rw [ih (j :: used) hndtl, List.filter_congr hshift]
        simp [List.reverse_cons, List.append_assoc]
      · have hp : simPred seed thr used (j, t) = false := by
          simp [simPred, hdist]
        rw [collectSimilar, if_neg hmem, if_neg hdist, List.filter_cons, hp]
        simpa using ih used hndtl

/-- The per-cluster output rule of the source: a single-member cluster
emits its seed unchanged; a multi-member cluster emits the moving-average
re-smoothing of the concatenated member points. -/
def clusterOut (c : Track × List Track) : Track :=
  if c.2 = [] then c.1 else smooth_polyline (c.1 ++ c.2.flatten) SMOOTHING_WINDOW_SIZE

theorem mergeGo_eq_clusters (thr : ℚ) :
    ∀ (rest : List (ℕ × Track)) (used : List ℕ), (rest.map Prod.fst).Nodup →
      mergeGo thr rest used = (clusters thr rest used).map clusterOut := by
  intro rest
  induction rest with
  | nil => intro used _; rfl
  | cons hd tl ih =>
    intro used hnd
    obtain ⟨i, t⟩ := hd
    rw [List.map_cons] at hnd
    have hi : i ∉ tl.map Prod.fst := (List.nodup_cons.1 hnd).1
    have hndtl : (tl.map Prod.fst).Nodup := (List.nodup_cons.1 hnd).2
    by_cases hmem : i ∈ used
    · rw [mergeGo, clusters, if_pos hmem, if_pos hmem]
      exact ih used hndtl
    · have hshift : ∀ jt ∈ tl, simPred t thr (i :: used) jt = simPred t thr used jt := by
        intro jt hjt
        apply simPred_congr
        have : jt.1 ≠ i := by
          intro he
          exact hi (List.mem_map.2 ⟨jt, hjt, he⟩)
        simp [List.mem_cons, this]
      have hcs := collectSimilar_eq t thr tl (i :: used) hndtl
      rw [List.filter_congr hshift] at hcs
      rw [mergeGo, clusters, if_neg hmem, if_neg hmem, hcs]
      rw [List.map_cons]
      rw [ih _ hndtl]
      have hu := clusters_congr thr tl
        ((List.map Prod.fst (List.filter (simPred t thr used) tl)).reverse ++ i :: used)
        (i :: (used ++ List.map Prod.fst (List.filter (simPred t thr used) tl)))
        (by
          intro x
          simp only [List.mem_append, List.mem_reverse, List.mem_cons]
          tauto)
      rw [hu]
      rfl

/-- C3 (amended): `merge_similar_tracks` produces, in order, one output per
greedy cluster, where the cluster seeded at index `i` consists of track
`i` plus exactly the later not-yet-assigned tracks whose shape distance to
track `i` is below the threshold; a multi-member cluster's output is the
moving-average re-smoothing of the concatenation of all member points in
cluster order, but a single-member cluster's output is the seed track
unchanged (not re-smoothed, contrary to the original claim). -/
theorem merge_similar_tracks_spec (tracks : List Track) (thr : ℚ) :
    merge_similar_tracks tracks thr = (clusters thr tracks.enum []).map clusterOut := by
  unfold merge_similar_tracks
  by_cases hlen : tracks.length ≤ 1
  · rw [if_pos hlen]
    match tracks, hlen with
    | [], _ => rfl
    | [a], _ =>
      show [a] = (clusters thr [(0, a)] []).map clusterOut
      rw [clusters]
      simp [clusters, clusterOut]
  · rw [if_neg hlen]
    exact mergeGo_eq_clusters thr tracks.enum [] (List.nodup_enum_map_fst tracks)

/-- First track of the clustering counterexample: five points whose
moving-average smoothing differs from the original. -/
def T1 : Track := [(0, 0), (7, 0), (0, 0), (7, 0), (0, 0)]

/-- Second track, far from `T1` (shape distance 8649 > 400). -/
def T2 : Track := [(100, 0), (107, 0), (100, 0), (107, 0), (100, 0)]

/-- C3 (counterexample): two mutually distant tracks form two
single-member clusters; `merge_similar_tracks` returns both unchanged,
yet re-smoothing the (one-track) concatenation of the first cluster would
change it — so the original claim, which demands that every cluster's
output (including single-member clusters) be the re-smoothed
concatenation, is false on this input. -/
theorem merge_single_cluster_counterexample :
    merge_similar_tracks [T1, T2] HAUSDORFF_THRESHOLD_SQ = [T1, T2] ∧
    smooth_polyline T1 SMOOTHING_WINDOW_SIZE ≠ T1 := by
  constructor
  · with_unfolding_all decide
  · with_unfolding_all decide

/-- The accumulation loop of `lane_processing.filter_valid_tracks`: a track
survives iff its frame count reaches `min_frames` and it has at least
`MIN_TRACK_POINTS` points; survivors are smoothed. -/
def filterGo (frame_counts : ℕ → ℕ) (min_frames : ℤ) : List (ℕ × Track) → List Track
  | [] => []
  | (tid, pts) :: rest =>
    if min_frames ≤ (frame_counts tid : ℤ) ∧ MIN_TRACK_POINTS ≤ pts.length then
      smooth_polyline pts SMOOTHING_WINDOW_SIZE :: filterGo frame_counts min_frames rest
    else filterGo frame_counts min_frames rest

/-- `lane_processing.filter_valid_tracks`.  `min_frames =
int(MIN_TRACK_DURATION_SECONDS * fps)`: Python `int()` truncates toward
zero, which coincides with the floor for the nonnegative frame rates the
program reads from its video input. -/
def filter_valid_tracks (all_tracks : List (ℕ × Track)) (frame_counts : ℕ → ℕ)
    (fps : ℚ) : List Track :=
  filterGo frame_counts (MIN_TRACK_DURATION_SECONDS * fps).floor all_tracks

theorem filterGo_eq (frame_counts : ℕ → ℕ) (min_frames : ℤ) :
    ∀ l : List (ℕ × Track),
      filterGo frame_counts min_frames l =
        (l.filter (fun p => decide (min_frames ≤ (frame_counts p.1 : ℤ) ∧
            MIN_TRACK_POINTS ≤ p.2.length))).map
          (fun p => smooth_polyline p.2 SMOOTHING_WINDOW_SIZE) := by
  intro l
  induction l with
  | nil => rfl
  | cons hd tl ih =>
    obtain ⟨tid, pts⟩ := hd
    by_cases h : min_frames ≤ (frame_counts tid : ℤ) ∧ MIN_TRACK_POINTS ≤ pts.length
    · rw [filterGo, if_pos h, List.filter_cons,
        if_pos (by simpa using h : decide (min_frames ≤ (frame_counts tid : ℤ) ∧
          MIN_TRACK_POINTS ≤ pts.length) = true), List.map_cons, ih]
    · rw [filterGo, if_neg h, List.filter_cons,
        if_neg (by simpa using h : ¬ decide (min_frames ≤ (frame_counts tid : ℤ) ∧
          MIN_TRACK_POINTS ≤ pts.length) = true), ih]

/-- C9: the filter stage keeps exactly the raw tracks whose frame count is
at least `int(MIN_TRACK_DURATION_SECONDS * fps)` and whose point count is
at least `MIN_TRACK_POINTS`, emitting them smoothed and in order; a track
one frame below the threshold is excluded, one at the threshold is
retained. -/
theorem filter_valid_tracks_spec (all_tracks : List (ℕ × Track))
    (frame_counts : ℕ → ℕ) (fps : ℚ) :
    filter_valid_tracks all_tracks frame_counts fps =
      (all_tracks.filter (fun p => decide ((MIN_TRACK_DURATION_SECONDS * fps).floor ≤
          (frame_counts p.1 : ℤ) ∧ MIN_TRACK_POINTS ≤ p.2.length))).map
        (fun p => smooth_polyline p.2 SMOOTHING_WINDOW_SIZE) ∧
    (∀ (tid : ℕ) (pts : Track),
      ((frame_counts tid : ℤ) < (MIN_TRACK_DURATION_SECONDS * fps).floor ∨
          pts.length < MIN_TRACK_POINTS) →
        filter_valid_tracks [(tid, pts)] frame_counts fps = []) ∧
    (∀ (tid : ℕ) (pts : Track),
      (MIN_TRACK_DURATION_SECONDS * fps).floor ≤ (frame_counts tid : ℤ) →
        MIN_TRACK_POINTS ≤ pts.length →
        filter_valid_tracks [(tid, pts)] frame_counts fps =
          [smooth_polyline pts SMOOTHING_WINDOW_SIZE]) := by
  refine ⟨filterGo_eq _ _ all_tracks, ?_, ?_⟩
  · intro tid pts h
    have hc : ¬ ((MIN_TRACK_DURATION_SECONDS * fps).floor ≤ (frame_counts tid : ℤ) ∧
        MIN_TRACK_POINTS ≤ pts.length) := by
      rcases h with h | h
      · exact fun hx => absurd hx.1 (not_le.2 h)
      · exact fun hx => absurd hx.2 (not_le.2 h)
    unfold filter_valid_tracks
    rw [filterGo, if_neg hc]
    rfl
  · intro tid pts h1 h2
    unfold filter_valid_tracks
    rw [filterGo, if_pos ⟨h1, h2⟩]
    rfl

theorem filter_valid_tracks_spec_witness :
    ((29 : ℤ) < (MIN_TRACK_DURATION_SECONDS * (10 : ℚ)).floor ∧
      filter_valid_tracks [(0, P7)] (fun _ => 29) 10 = []) ∧
    ((MIN_TRACK_DURATION_SECONDS * (10 : ℚ)).floor ≤ (30 : ℤ) ∧
      filter_valid_tracks [(0, P7)] (fun _ => 30) 10 =
        [smooth_polyline P7 SMOOTHING_WINDOW_SIZE]) :=
  ⟨⟨by with_unfolding_all decide,
    (filter_valid_tracks_spec [(0, P7)] (fun _ => 29) 10).2.1 0 P7
      (Or.inl (by with_unfolding_all decide))⟩,
   ⟨by with_unfolding_all decide,
    (filter_valid_tracks_spec [(0, P7)] (fun _ => 30) 10).2.2 0 P7
      (by with_unfolding_all decide) (by decide)⟩⟩

/-- First point of a track (`track[0]`); tracks reaching this are nonempty. -/
def headP (l : Track) : Point := l.headD (0, 0)

/-- Last point of a track (`track[-1]`). -/
def lastP (l : Track) : Point := l.getLastD (0, 0)

/-- The start-endpoint block of the snapping loop body: `if` the original
start is within tolerance of the neighbor's start, overwrite slot 0 with
the neighbor's start, `elif` within tolerance of the neighbor's end,
overwrite with the neighbor's end. -/
def snapStart (track : Track) (tol2 : ℚ) (acc other : Track) : Track :=
  if sqDist (headP track) (headP other) < tol2 then acc.set 0 (headP other)
  else if sqDist (headP track) (lastP other) < tol2 then acc.set 0 (lastP other)
  else acc

/-- The end-endpoint block of the snapping loop body (slot `-1`, i.e. index
`length - 1`). -/
def snapEnd (track : Track) (tol2 : ℚ) (acc other : Track) : Track :=
  if sqDist (lastP track) (headP other) < tol2 then acc.set (acc.length - 1) (headP other)
  else if sqDist (lastP track) (lastP other) < tol2 then acc.set (acc.length - 1) (lastP other)
  else acc

/-- One iteration of the inner loop of `snap_endpoints`: neighbors equal
(by value) to the track itself, or with fewer than 2 points, are skipped;
comparisons always use the track's original endpoints. -/
def snapStep (track : Track) (tol2 : ℚ) (acc other : Track) : Track :=
  if other = track ∨ other.length < 2 then acc
  else snapEnd track tol2 (snapStart track tol2 acc other) other

/-- The full inner loop for one track (`snapped_track = track[:]`, then the
scan over all tracks). -/
def snapTrack (track : Track) (tracks : List Track) (tol2 : ℚ) : Track :=
  tracks.foldl (snapStep track tol2) track

/-- The outer loop of `snap_endpoints`: tracks with fewer than 2 points
are skipped (`continue`); each survivor is snapped against the original
track list. -/
def snapAll (all : List Track) (tol2 : ℚ) : List Track → List Track
  | [] => []
  | t :: rest =>
    if t.length < 2 then snapAll all tol2 rest
    else snapTrack t all tol2 :: snapAll all tol2 rest

/-- `lane_processing.snap_endpoints` (tolerance in the squared
representation, 15.0^2 = 225). -/
def snap_endpoints (tracks : List Track) (tol2 : ℚ := ENDPOINT_SNAP_TOLERANCE_SQ) :
    List Track :=
  if tracks.length ≤ 1 then tracks
  else snapAll tracks tol2 tracks

theorem snapStart_length (track : Track) (tol2 : ℚ) (acc other : Track) :
    (snapStart track tol2 acc other).length = acc.length := by
  unfold snapStart
  split_ifs <;> simp

theorem snapEnd_length (track : Track) (tol2 : ℚ) (acc other : Track) :
    (snapEnd track tol2 acc other).length = acc.length := by
  unfold snapEnd
  split_ifs <;> simp

theorem snapStep_length (track : Track) (tol2 : ℚ) (acc other : Track) :
    (snapStep track tol2 acc other).length = acc.length := by
  unfold snapStep
  split_ifs with h
  · rfl
  · rw [snapEnd_length, snapStart_length]

theorem snapStart_interior (track : Track) (tol2 : ℚ) (acc other : Track) (i : ℕ)
    (h0 : 0 < i) : (snapStart track tol2 acc other)[i]? = acc[i]? := by
  unfold snapStart
  split_ifs <;> first
    | rfl
    | exact List.getElem?_set_ne (by omega)

theorem snapEnd_interior (track : Track) (tol2 : ℚ) (acc other : Track) (i : ℕ)
    (hi : i + 1 < acc.length) : (snapEnd track tol2 acc other)[i]? = acc[i]? := by
  unfold snapEnd
  split_ifs <;> first
    | rfl
    | exact List.getElem?_set_ne (by omega)

theorem snapStep_interior (track : Track) (tol2 : ℚ) (acc other : Track) (i : ℕ)
    (h0 : 0 < i) (hi : i + 1 < acc.length) :
    (snapStep track tol2 acc other)[i]? = acc[i]? := by
  unfold snapStep
  split_ifs with h
  · rfl
  · rw [snapEnd_interior track tol2 _ other i
      (by rw [snapStart_length]; exact hi), snapStart_interior track tol2 acc other i h0]

theorem snapTrack_foldl_length (track : Track) (tol2 : ℚ) :
    ∀ (others : List Track) (acc : Track),
      (others.foldl (snapStep track tol2) acc).length = acc.length := by
  intro others
  induction others with
  | nil => intro acc; rfl
  | cons o os ih =>
    intro acc
    rw [List.foldl_cons, ih, snapStep_length]

theorem snapTrack_foldl_interior (track : Track) (tol2 : ℚ) :
    ∀ (others : List Track) (acc : Track) (i : ℕ), 0 < i → i + 1 < acc.length →
      (others.foldl (snapStep track tol2) acc)[i]? = acc[i]? := by
  intro others
  induction others with
  | nil => intro acc i _ _; rfl
  | cons o os ih =>
    intro acc i h0 hi
    rw [List.foldl_cons,
      ih (snapStep track tol2 acc o) i h0 (by rw [snapStep_length]; exact hi),
      snapStep_interior track tol2 acc o i h0 hi]

theorem snapTrack_length (track : Track) (tracks : List Track) (tol2 : ℚ) :
    (snapTrack track tracks tol2).length = track.length :=
  snapTrack_foldl_length track tol2 tracks track

theorem snapTrack_interior (track : Track) (tracks : List Track) (tol2 : ℚ) (i : ℕ)
    (h0 : 0 < i) (hi : i + 1 < track.length) :
    (snapTrack track tracks tol2)[i]? = track[i]? :=
  snapTrack_foldl_interior track tol2 tracks track i h0 hi

theorem snapAll_eq (all : List Track) (tol2 : ℚ) :
    ∀ tracks : List Track,
      snapAll all tol2 tracks =
        (tracks.filter (fun t => decide (2 ≤ t.length))).map
          (fun t => snapTrack t all tol2) := by
  intro tracks
  induction tracks with
  | nil => rfl
  | cons t rest ih =>
    by_cases h : t.length < 2
    · rw [snapAll, if_pos h, List.filter_cons,
        if_neg (by simpa using h : ¬ decide (2 ≤ t.length) = true), ih]
    · rw [snapAll, if_neg h, List.filter_cons,
        if_pos (by simpa using not_lt.1 h : decide (2 ≤ t.length) = true),
        List.map_cons, ih]

/-- C10: when the input has more than one track, `snap_endpoints` emits,
in order, one output per input track having at least 2 points (shorter
tracks are omitted); each output has the same length as its input and
agrees with it on every interior index — only the first and last points
can change. -/
theorem snap_endpoints_frame (tracks : List Track) (tol2 : ℚ) (h : 1 < tracks.length) :
    snap_endpoints tracks tol2 =
      (tracks.filter (fun t => decide (2 ≤ t.length))).map
        (fun t => snapTrack t tracks tol2) ∧
    (∀ t : Track, (snapTrack t tracks tol2).length = t.length) ∧
    (∀ (t : Track) (i : ℕ), 0 < i → i + 1 < t.length →
      (snapTrack t tracks tol2)[i]? = t[i]?) := by
  refine ⟨?_, ?_, ?_⟩
  · rw [snap_endpoints, if_neg (by omega)]
    exact snapAll_eq tracks tol2 tracks
  · intro t
    exact snapTrack_length t tracks tol2
  · intro t i h0 hi
    exact snapTrack_interior t tracks tol2 i h0 hi

/-- Tracks used by the snapping witnesses and counterexample. -/
def CA : Track := [(0, 0), (50, 3), (100, 0)]

/-- Start endpoint 10 units from `CA`'s start; all other endpoint pairs
at least 15 units apart. -/
def CB : Track := [(0, 10), (0, 110)]

/-- All endpoint pairs 20 or more units from `CA`'s endpoints. -/
def CD : Track := [(0, 20), (0, 120)]

theorem snap_endpoints_frame_witness :
    1 < [CA, CB].length ∧
    (snapTrack CA [CA, CB] ENDPOINT_SNAP_TOLERANCE_SQ).length = CA.length ∧
    (snapTrack CA [CA, CB] ENDPOINT_SNAP_TOLERANCE_SQ)[1]? = CA[1]? :=
  ⟨by decide,
   (snap_endpoints_frame [CA, CB] ENDPOINT_SNAP_TOLERANCE_SQ (by decide)).2.1 CA,
   (snap_endpoints_frame [CA, CB] ENDPOINT_SNAP_TOLERANCE_SQ (by decide)).2.2 CA 1
     (by decide) (by decide)⟩

/-- C2 (amended): for two distinct valid polylines whose start endpoints
are within the snap tolerance while every other endpoint pair is out of
tolerance, snapping overwrites each polyline's start with the OTHER
polyline's original start — the two endpoints are exchanged, not made
identical (each track is snapped against the original, un-snapped list);
when every endpoint pair is out of tolerance, both polylines are returned
unchanged. -/
theorem snap_endpoints_pair_spec (A B : Track) :
    (2 ≤ A.length → 2 ≤ B.length → A ≠ B →
      sqDist (headP A) (headP B) < ENDPOINT_SNAP_TOLERANCE_SQ →
      ENDPOINT_SNAP_TOLERANCE_SQ ≤ sqDist (headP A) (lastP B) →
      ENDPOINT_SNAP_TOLERANCE_SQ ≤ sqDist (lastP A) (headP B) →
      ENDPOINT_SNAP_TOLERANCE_SQ ≤ sqDist (lastP A) (lastP B) →
      snap_endpoints [A, B] ENDPOINT_SNAP_TOLERANCE_SQ =
        [A.set 0 (headP B), B.set 0 (headP A)]) ∧
    (2 ≤ A.length → 2 ≤ B.length → A ≠ B →
      ENDPOINT_SNAP_TOLERANCE_SQ ≤ sqDist (headP A) (headP B) →
      ENDPOINT_SNAP_TOLERANCE_SQ ≤ sqDist (headP A) (lastP B) →
      ENDPOINT_SNAP_TOLERANCE_SQ ≤ sqDist (lastP A) (headP B) →
      ENDPOINT_SNAP_TOLERANCE_SQ ≤ sqDist (lastP A) (lastP B) →
      snap_endpoints [A, B] ENDPOINT_SNAP_TOLERANCE_SQ = [A, B]) := by
  constructor
  · intro hA hB hne h1 h2 h3 h4
    have hBA : ¬ (A = B ∨ A.length < 2) := by
      rintro (hc | hc)
      · exact hne hc
      · omega
    have hAB : ¬ (B = A ∨ B.length < 2) := by
      rintro (hc | hc)
      · exact hne hc.symm
      · omega
    rw [snap_endpoints, if_neg (by simp)]
    rw [snapAll, if_neg (by omega), snapAll, if_neg (by omega), snapAll]
    unfold snapTrack
    rw [List.foldl_cons, List.foldl_cons, List.foldl_nil,
        List.foldl_cons, List.foldl_cons, List.foldl_nil]
    rw [show snapStep A ENDPOINT_SNAP_TOLERANCE_SQ A A = A from
      by rw [snapStep, if_pos (Or.inl rfl)]]
    rw [show snapStep B ENDPOINT_SNAP_TOLERANCE_SQ B A =
        B.set 0 (headP A) from ?_]
    rw [show snapStep A ENDPOINT_SNAP_TOLERANCE_SQ A B =
        A.set 0 (headP B) from ?_]
    · rw [show snapStep B ENDPOINT_SNAP_TOLERANCE_SQ (B.set 0 (headP A)) B =
          B.set 0 (headP A) from by rw [snapStep, if_pos (Or.inl rfl)]]
    · rw [snapStep, if_neg hAB, snapStart, if_pos h1, snapEnd,
        if_neg (not_lt.2 h3), if_neg (not_lt.2 h4)]
    · rw [snapStep, if_neg hBA, snapStart,
        if_pos (by rw [sqDist_comm]; exact h1), snapEnd,
        if_neg (not_lt.2 (by rw [sqDist_comm]; exact h2)),
        if_neg (not_lt.2 (by rw [sqDist_comm]; exact h4))]
  · intro hA hB hne h1 h2 h3 h4
    have hBA : ¬ (A = B ∨ A.length < 2) := by
      rintro (hc | hc)
      · exact hne hc
      · omega
    have hAB : ¬ (B = A ∨ B.length < 2) := by
      rintro (hc | hc)
      · exact hne hc.symm
      · omega
    rw [snap_endpoints, if_neg (by simp)]
    rw [snapAll, if_neg (by omega), snapAll, if_neg (by omega), snapAll]
    unfold snapTrack
    rw [List.foldl_cons, List.foldl_cons, List.foldl_nil,
        List.foldl_cons, List.foldl_cons, List.foldl_nil]
    rw [show snapStep A ENDPOINT_SNAP_TOLERANCE_SQ A A = A from
      by rw [snapStep, if_pos (Or.inl rfl)]]
    rw [show snapStep A ENDPOINT_SNAP_TOLERANCE_SQ A B = A from
      by rw [snapStep, if_neg hAB, snapStart, if_neg (not_lt.2 h1),
        if_neg (not_lt.2 h2), snapEnd, if_neg (not_lt.2 h3), if_neg (not_lt.2 h4)]]
    rw [show snapStep B ENDPOINT_SNAP_TOLERANCE_SQ B A = B from
      by rw [snapStep, if_neg hBA, snapStart,
        if_neg (not_lt.2 (by rw [sqDist_comm]; exact h1)),
        if_neg (not_lt.2 (by rw [sqDist_comm]; exact h3)), snapEnd,
        if_neg (not_lt.2 (by rw [sqDist_comm]; exact h2)),
        if_neg (not_lt.2 (by rw [sqDist_comm]; exact h4))]]
    rw [show snapStep B ENDPOINT_SNAP_TOLERANCE_SQ B B = B from
      by rw [snapStep, if_pos (Or.inl rfl)]]

theorem snap_endpoints_pair_spec_witness :
    snap_endpoints [CA, CB] ENDPOINT_SNAP_TOLERANCE_SQ =
      [CA.set 0 (headP CB), CB.set 0 (headP CA)] ∧
    snap_endpoints [CA, CD] ENDPOINT_SNAP_TOLERANCE_SQ = [CA, CD] :=
  ⟨(snap_endpoints_pair_spec CA CB).1 (by decide) (by decide)
      (by with_unfolding_all decide) (by with_unfolding_all decide)
      (by with_unfolding_all decide) (by with_unfolding_all decide)
      (by with_unfolding_all decide),
   (snap_endpoints_pair_spec CA CD).2 (by decide) (by decide)
      (by with_unfolding_all decide) (by with_unfolding_all decide)
      (by with_unfolding_all decide) (by with_unfolding_all decide)
      (by with_unfolding_all decide)⟩

/-- C2 (counterexample): `CA`'s start and `CB`'s start are 10 units apart
(tolerance 15, squared: 100 < 225) and every other endpoint pair is more
than 15 units apart; after snapping, `CA`'s start holds `CB`'s original
start `(0, 10)` and `CB`'s start holds `CA`'s original start `(0, 0)` —
the two snapped endpoints are NOT identical, refuting the original claim
that they end up with identical coordinates. -/
theorem snap_identical_counterexample :
    sqDist (headP CA) (headP CB) = 100 ∧
    snap_endpoints [CA, CB] ENDPOINT_SNAP_TOLERANCE_SQ =
      [[(0, 10), (50, 3), (100, 0)], [(0, 0), (0, 110)]] ∧
    headP [((0 : ℚ), (10 : ℚ)), (50, 3), (100, 0)] ≠ headP [((0 : ℚ), (0 : ℚ)), (0, 110)] := by
  refine ⟨by with_unfolding_all decide, ?_, by with_unfolding_all decide⟩
  with_unfolding_all decide

end RoadMapper

namespace Smoother

/-- One prediction entry as buffered by
`tracker.LaneAwareVehicleTracker.smooth_predictions`: the fields it reads
and writes (`lane_id`, `probability`) plus the payload it copies through
(`path_points` stands for the path/direction/etc. data of the entry). -/
structure Pred where
  lane_id : ℕ
  probability : ℚ
  path_points : List (ℚ × ℚ)
deriving DecidableEq

/-- Default entry for out-of-range `getD` reads (indices are always in
range at use sites). -/
def defaultPred : Pred := ⟨0, 0, []⟩

/-- `min(len(pred) for pred in buffer)` over the nonempty buffer. -/
def minLen : List (List Pred) → ℕ
  | [] => 0
  | l :: ls => ls.foldl (fun acc s => min acc s.length) l.length

/-- The probabilities collected for rank `i`: every buffered list long
enough at `i` whose rank-`i` entry carries the new list's rank-`i` lane
identifier contributes its probability. -/
def probsAt (buf : List (List Pred)) (newPreds : List Pred) (i : ℕ) : List ℚ :=
  buf.filterMap (fun s =>
    if h : i < s.length then
      if s[i].lane_id = (newPreds.getD i defaultPred).lane_id then
        some s[i].probability
      else none
    else none)

/-- `tracker.smooth_predictions`: append the new list to the vehicle's
buffer, pop the oldest entry if the buffer exceeds 2, pass the new list
through unchanged if the buffer holds a single list, and otherwise emit,
for each rank `i` below the shortest buffered list, the new rank-`i`
entry with its probability replaced by 0.95 times the average of the
matching buffered probabilities (`if all_paths:` never fails because the
new list always matches itself).  Returns the updated buffer and the
smoothed list. -/
def smooth_predictions (prior : List (List Pred)) (newPreds : List Pred) :
    List (List Pred) × List Pred :=
  let buf0 := prior ++ [newPreds]
  let buf := if 2 < buf0.length then buf0.tail else buf0
  if buf.length = 1 then (buf, newPreds)
  else
    (buf,
     (List.range (minLen buf)).filterMap (fun i =>
       if probsAt buf newPreds i = [] then none
       else some { newPreds.getD i defaultPred with
                   probability := (probsAt buf newPreds i).sum /
                     ((probsAt buf newPreds i).length : ℚ) * (19 / 20) }))

theorem filterMap_eq_map_of_some {α β : Type} (f : α → Option β) (g : α → β) :
    ∀ l : List α, (∀ a ∈ l, f a = some (g a)) → l.filterMap f = l.map g := by
  intro l
  induction l with
  | nil => intro _; rfl
  | cons a l ih =>
    intro h
    rw [List.filterMap_cons, h a (by simp), List.map_cons,
      ih (fun b hb => h b (by simp [hb]))]

theorem probsAt_pair_ne_nil (old newPreds : List Pred) (i : ℕ)
    (hin : i < newPreds.length) : probsAt [old, newPreds] newPreds i ≠ [] := by
  unfold probsAt
  rw [List.filterMap_cons, List.filterMap_cons, List.filterMap_nil]
  have hnew : (if h : i < newPreds.length then
      (if newPreds[i].lane_id = (newPreds.getD i defaultPred).lane_id then
        some newPreds[i].probability
      else none)
    else none) = some newPreds[i].probability := by
    rw [dif_pos hin, if_pos]
    rw [List.getD_eq_getElem newPreds defaultPred hin]
  rw [hnew]
  cases hold : (if h : i < old.length then
      (if old[i].lane_id = (newPreds.getD i defaultPred).lane_id then
        some old[i].probability
      else none)
    else none) with
  | none => simp
  | some q => simp

theorem smooth_predictions_pair_eq_map (old newPreds : List Pred) :
    (smooth_predictions [old] newPreds).2 =
      (List.range (min old.length newPreds.length)).map (fun i =>
        { newPreds.getD i defaultPred with
          probability := (probsAt [old, newPreds] newPreds i).sum /
            ((probsAt [old, newPreds] newPreds i).length : ℚ) * (19 / 20) }) := by
  have hbuf : (if 2 < ([old] ++ [newPreds]).length then ([old] ++ [newPreds]).tail
      else [old] ++ [newPreds]) = [old, newPreds] := by
    simp
  have hmin : minLen [old, newPreds] = min old.length newPreds.length := rfl
  simp only [smooth_predictions]
  rw [hbuf]
  rw [if_neg (by simp)]
  rw [hmin]
  apply filterMap_eq_map_of_some
  intro i hi
  have hin : i < newPreds.length := by
    have := List.mem_range.1 hi
    omega
  rw [if_neg (probsAt_pair_ne_nil old newPreds i hin)]

/-- C1 (amended): when a vehicle's buffer holds two prediction lists, the
smoothed output has one entry for every rank `i` below the shorter list —
no entry is ever dropped — and at a rank where the lane identifiers of
the two buffered lists disagree, the output entry is the new entry kept
with probability 0.95 times its own probability (no averaging with the
older entry), because the new list always matches its own lane
identifier. -/
theorem smooth_predictions_mismatch_kept (old newPreds : List Pred) (i : ℕ)
    (hio : i < old.length) (hin : i < newPreds.length)
    (hmm : (old.getD i defaultPred).lane_id ≠ (newPreds.getD i defaultPred).lane_id) :
    ((smooth_predictions [old] newPreds).2).length = min old.length newPreds.length ∧
    ((smooth_predictions [old] newPreds).2)[i]? =
      some { newPreds.getD i defaultPred with
             probability := (newPreds.getD i defaultPred).probability * (19 / 20) } := by
  constructor
  · rw [smooth_predictions_pair_eq_map]
    simp
  · rw [smooth_predictions_pair_eq_map]
    rw [List.getElem?_map, List.getElem?_range (lt_min hio hin), Option.map_some']
    have hprobs : probsAt [old, newPreds] newPreds i =
        [(newPreds.getD i defaultPred).probability] := by
      unfold probsAt
      rw [List.filterMap_cons, List.filterMap_cons, List.filterMap_nil]
      have holdn : (if h : i < old.length then
          (if old[i].lane_id = (newPreds.getD i defaultPred).lane_id then
            some old[i].probability
          else none)
        else none) = none := by
        rw [dif_pos hio, if_neg]
        rw [← List.getD_eq_getElem old defaultPred hio]
        exact hmm
      have hnewn : (if h : i < newPreds.length then
          (if newPreds[i].lane_id = (newPreds.getD i defaultPred).lane_id then
            some newPreds[i].probability
          else none)
        else none) = some (newPreds.getD i defaultPred).probability := by
        rw [dif_pos hin, if_pos]
        · rw [List.getD_eq_getElem newPreds defaultPred hin]
        · rw [List.getD_eq_getElem newPreds defaultPred hin]
      rw [holdn, hnewn]
    rw [hprobs]
    simp

/-- C1 (counterexample): the buffer holds one earlier list whose only
entry has lane 1; the new list's only entry has lane 2 with probability
1/2.  The original claim says this mismatched entry is absent from the
smoothed output; the code instead returns it with probability
(1/2)·0.95 = 19/40. -/
theorem smooth_predictions_drop_counterexample :
    (⟨1, 1/2, []⟩ : Pred).lane_id ≠ (⟨2, 1/2, []⟩ : Pred).lane_id ∧
    (smooth_predictions [[⟨1, 1/2, []⟩]] [⟨2, 1/2, []⟩]).2 = [⟨2, 19/40, []⟩] := by
  refine ⟨by decide, ?_⟩
  with_unfolding_all decide

theorem smooth_predictions_mismatch_kept_witness :
    ((smooth_predictions [[⟨1, 1, []⟩]] [⟨2, 1, []⟩]).2).length = min 1 1 ∧
    ((smooth_predictions [[⟨1, 1, []⟩]] [⟨2, 1, []⟩]).2)[0]? =
      some { ([⟨2, 1, []⟩] : List Pred).getD 0 defaultPred with
             probability := (([⟨2, 1, []⟩] : List Pred).getD 0 defaultPred).probability *
               (19 / 20) } :=
  smooth_predictions_mismatch_kept [⟨1, 1, []⟩] [⟨2, 1, []⟩] 0
    (by decide) (by decide) (by decide)

end Smoother

/-- A 2D point with real coordinates, for the square-root-based geometry of
the prediction subsystem. -/
abbrev RPoint : Type := ℝ × ℝ

noncomputable section

namespace Predictor

/-- `config.PROCESSING_FPS = 50`. -/
def PROCESSING_FPS : ℝ := 50

/-- `VehiclePredictor._calculate_smoothed_velocity`: the last three
frame-to-frame displacements (indices `n-3, n-2, n-1`, each guarded by
`i > 0`), divided by `dt = 1 / PROCESSING_FPS`, averaged componentwise;
`None` when fewer than 4 positions or no velocity was collected. -/
def calculate_smoothed_velocity (positions : List RPoint) : Option RPoint :=
  if positions.length < 4 then none
  else
    let idxs := ((List.range 3).map (fun k => positions.length - 3 + k)).filter
      (fun i => 0 < i)
    let velocities := idxs.map (fun i =>
      (((positions.getD i (0, 0)).1 - (positions.getD (i - 1) (0, 0)).1) /
         (1 / PROCESSING_FPS),
       ((positions.getD i (0, 0)).2 - (positions.getD (i - 1) (0, 0)).2) /
         (1 / PROCESSING_FPS)))
    if velocities = [] then none
    else some ((velocities.map Prod.fst).sum / (velocities.length : ℝ),
               (velocities.map Prod.snd).sum / (velocities.length : ℝ))

/-- `VehiclePredictor._get_speed`. -/
def get_speed (v : RPoint) : ℝ := Real.sqrt (v.1 ^ 2 + v.2 ^ 2)

/-- `VehiclePredictor._get_movement_direction`: unit vector from the
position 5 frames back (`positions[-5]`) to the current position
(`positions[-1]`); `None` when the history is shorter than 5 or the
displacement length is below 2. -/
def get_movement_direction (positions : List RPoint) : Option RPoint :=
  if positions.length < 5 then none
  else
    let s := positions.getD (positions.length - 5) (0, 0)
    let e := positions.getLastD (0, 0)
    let dx := e.1 - s.1
    let dy := e.2 - s.2
    if Real.sqrt (dx ^ 2 + dy ^ 2) < 2 then none
    else some (dx / Real.sqrt (dx ^ 2 + dy ^ 2), dy / Real.sqrt (dx ^ 2 + dy ^ 2))

/-- `VehiclePredictor._calculate_alignment`: unsigned dot product. -/
def calculate_alignment (m l : RPoint) : ℝ := |m.1 * l.1 + m.2 * l.2|

/-- One iteration of the direction-collecting loop in
`_calculate_direction_consistency`: the normalized displacement from
position `i-1` to position `i`, when its length is positive. -/
def dirAt (positions : List RPoint) (i : ℕ) : Option RPoint :=
  let dx := (positions.getD i (0, 0)).1 - (positions.getD (i - 1) (0, 0)).1
  let dy := (positions.getD i (0, 0)).2 - (positions.getD (i - 1) (0, 0)).2
  if 0 < Real.sqrt (dx ^ 2 + dy ^ 2) then
    some (dx / Real.sqrt (dx ^ 2 + dy ^ 2), dy / Real.sqrt (dx ^ 2 + dy ^ 2))
  else none

/-- The averaging tail of `_calculate_direction_consistency`: mean of the
positive parts of dot products of consecutive collected directions, `0.5`
when fewer than 2 directions or no pairs. -/
def consistencyOf (directions : List RPoint) : ℝ :=
  if directions.length < 2 then 1 / 2
  else
    if 0 < ((directions.zip directions.tail).map
        (fun pr => max 0 (pr.2.1 * pr.1.1 + pr.2.2 * pr.1.2))).length then
      ((directions.zip directions.tail).map
        (fun pr => max 0 (pr.2.1 * pr.1.1 + pr.2.2 * pr.1.2))).sum /
        (((directions.zip directions.tail).map
          (fun pr => max 0 (pr.2.1 * pr.1.1 + pr.2.2 * pr.1.2))).length : ℝ)
    else 1 / 2

/-- `VehiclePredictor._calculate_direction_consistency`: directions of the
last three frame pairs (`i > 0`, positive length only), then the average
positive-part dot product of consecutive directions; `0.5` when the
history is shorter than 6. -/
def calculate_direction_consistency (positions : List RPoint) : ℝ :=
  if positions.length < 6 then 1 / 2
  else consistencyOf ((((List.range 3).map (fun k => positions.length - 3 + k)).filter
    (fun i => 0 < i)).filterMap (dirAt positions))

/-- The `base_probability` accumulated by
`VehiclePredictor._calculate_lane_probability` before the close-distance
boost: alignment times the distance factor times the consistency factor. -/
def lane_prob_base (positions : List RPoint) (distance_to_lane alignment : ℝ) : ℝ :=
  alignment * max 0 (1 - distance_to_lane / 50) *
    (1 / 2 + 1 / 2 * calculate_direction_consistency positions)

/-- `VehiclePredictor._calculate_lane_probability`: the base probability,
multiplied by 1.5 when the distance is below 15, clamped above by 1. -/
def calculate_lane_probability (positions : List RPoint)
    (distance_to_lane alignment : ℝ) : ℝ :=
  min 1 (if distance_to_lane < 15 then
    lane_prob_base positions distance_to_lane alignment * (3 / 2)
  else lane_prob_base positions distance_to_lane alignment)

/-- `VehiclePredictor._estimate_travel_distance`. -/
def estimate_travel_distance (v : RPoint) (time_horizon : ℝ) : ℝ :=
  get_speed v * time_horizon * PROCESSING_FPS * (3 / 5)

/-- One nearby-lane query result (`lane_manager.get_lanes_within_distance`
entry), as consumed by the predictor. -/
structure LaneInfo where
  laneId : ℕ
  distance : ℝ
  progress : ℝ

/-- The lane-index operations the predictor calls on `self.lane_manager`
(the Lane Index collaborator), keyed by lane identifier. -/
structure LaneOps where
  lanesWithin : RPoint → ℝ → List LaneInfo
  directionAt : ℕ → ℝ → Option RPoint
  pathAlong : ℕ → ℝ → ℝ → List RPoint

/-- One prediction record assembled by
`VehiclePredictor.predict_lane_possibilities`. -/
structure Prediction where
  lane_id : ℕ
  probability : ℝ
  path_points : List RPoint
  lane_direction : RPoint
  alignment : ℝ
  distance_to_lane : ℝ
  travel_distance : ℝ

/-- The body of the candidate-lane loop: distance cutoff at 50, lane
direction lookup, alignment cutoff at 0.3, probability cutoff at 0.2,
capped travel distance, and the sampled path which must have more than
one point. -/
def evalCandidate (ops : LaneOps) (positions : List RPoint) (time_horizon : ℝ)
    (v mdir : RPoint) (info : LaneInfo) : Option Prediction :=
  if 50 < info.distance then none
  else
    match ops.directionAt info.laneId info.progress with
    | none => none
    | some ldir =>
      if calculate_alignment mdir ldir < 3 / 10 then none
      else
        if 1 / 5 < calculate_lane_probability positions info.distance
            (calculate_alignment mdir ldir) then
          if 1 < (ops.pathAlong info.laneId info.progress
              (min (estimate_travel_distance v time_horizon) 120)).length then
            some ⟨info.laneId,
              calculate_lane_probability positions info.distance
                (calculate_alignment mdir ldir),
              ops.pathAlong info.laneId info.progress
                (min (estimate_travel_distance v time_horizon) 120),
              ldir, calculate_alignment mdir ldir, info.distance,
              min (estimate_travel_distance v time_horizon) 120⟩
          else none
        else none

/-- Stable insertion into a probability-descending list: the inserted
element goes after strictly larger probabilities and before equal ones
that came later in the original order. -/
def insertByProb (p : Prediction) : List Prediction → List Prediction
  | [] => [p]
  | q :: rest =>
    if p.probability < q.probability then q :: insertByProb p rest
    else p :: q :: rest

/-- `lane_predictions.sort(key=probability, reverse=True)`: Python's
stable descending sort, as a stable insertion sort. -/
def sortByProbDesc : List Prediction → List Prediction
  | [] => []
  | p :: rest => insertByProb p (sortByProbDesc rest)

/-- `VehiclePredictor.predict_lane_possibilities`: the precondition
checks (history length, smoothed speed, movement direction, nonempty
nearby-lane set), then the candidate loop over the 4 nearest lanes, then
the top 3 by probability. -/
def predict_lane_possibilities (ops : LaneOps) (history : List RPoint)
    (time_horizon : ℝ) : List Prediction :=
  if history.length < 8 then []
  else
    match calculate_smoothed_velocity history with
    | none => []
    | some v =>
      if get_speed v < 1 / 2 then []
      else
        match get_movement_direction history with
        | none => []
        | some mdir =>
          match ops.lanesWithin (history.getLastD (0, 0)) 80 with
          | [] => []
          | lane0 :: lanesRest =>
            (sortByProbDesc
              (((lane0 :: lanesRest).take 4).filterMap
                (evalCandidate ops history time_horizon v mdir))).take 3

/-- C6: the predictor returns the empty list (it is a total function, so
in particular it does not raise) whenever a precondition fails: the
history has fewer than 8 points, or the smoothed velocity has speed below
0.5 units/second, or the displacement from the position 5 frames back to
the current position has magnitude below 2 units. -/
theorem predict_preconditions_empty (ops : LaneOps) (history : List RPoint)
    (time_horizon : ℝ)
    (h : history.length < 8 ∨
      (∃ v, calculate_smoothed_velocity history = some v ∧ get_speed v < 1 / 2) ∨
      Real.sqrt (((history.getLastD (0, 0)).1 -
          (history.getD (history.length - 5) (0, 0)).1) ^ 2 +
        ((history.getLastD (0, 0)).2 -
          (history.getD (history.length - 5) (0, 0)).2) ^ 2) < 2) :
    predict_lane_possibilities ops history time_horizon = [] := by
  by_cases h8 : history.length < 8
  · simp [predict_lane_possibilities, h8]
  · rcases h with h | ⟨v, hv, hs⟩ | hd
    · exact absurd h h8
    · simp only [predict_lane_possibilities, if_neg h8, hv]
      simp [hs]
      intro h'
      exfalso
      linarith
    · have hdir : get_movement_direction history = none := by
        simp only [get_movement_direction, if_neg (by omega : ¬ history.length < 5)]
        rw [if_pos hd]
      simp only [predict_lane_possibilities, if_neg h8]
      cases hv : calculate_smoothed_velocity history with
      | none => rfl
      | some v =>
        by_cases hs : get_speed v < 1 / 2
        · simp [hs]
          intro h'
          exfalso
          linarith
        · simp [hs, hdir]

/-- A lane index with no lanes, used only to instantiate witnesses. -/
def emptyOps : LaneOps :=
  ⟨fun _ _ => [], fun _ _ => none, fun _ _ _ => []⟩

/-- A 7-point history (below the 8-point precondition). -/
def hist7 : List RPoint :=
  [(0, 0), (1, 0), (2, 0), (3, 0), (4, 0), (5, 0), (6, 0)]

theorem predict_preconditions_empty_witness :
    hist7.length < 8 ∧ predict_lane_possibilities emptyOps hist7 2 = [] :=
  ⟨by decide, predict_preconditions_empty emptyOps hist7 2 (Or.inl (by decide))⟩

theorem dirAt_unit (positions : List RPoint) (i : ℕ) (d : RPoint)
    (h : dirAt positions i = some d) : d.1 ^ 2 + d.2 ^ 2 = 1 := by
  simp only [dirAt] at h
  by_cases hlen : 0 < Real.sqrt
      (((positions.getD i (0, 0)).1 - (positions.getD (i - 1) (0, 0)).1) ^ 2 +
       ((positions.getD i (0, 0)).2 - (positions.getD (i - 1) (0, 0)).2) ^ 2)
  · rw [if_pos hlen] at h
    have hd := Option.some.inj h
    set dx := (positions.getD i (0, 0)).1 - (positions.getD (i - 1) (0, 0)).1 with hdx
    set dy := (positions.getD i (0, 0)).2 - (positions.getD (i - 1) (0, 0)).2 with hdy
    have hsq : Real.sqrt (dx ^ 2 + dy ^ 2) ^ 2 = dx ^ 2 + dy ^ 2 :=
      Real.sq_sqrt (by positivity)
    have hne : Real.sqrt (dx ^ 2 + dy ^ 2) ≠ 0 := ne_of_gt hlen
    have hpos : 0 < dx ^ 2 + dy ^ 2 := Real.sqrt_pos.1 hlen
    rw [← hd]
    simp only [div_pow]
    rw [hsq, div_add_div_same, div_self (ne_of_gt hpos)]
  · rw [if_neg hlen] at h
    exact absurd h (by simp)

theorem unit_dot_le_one (a b : RPoint) (ha : a.1 ^ 2 + a.2 ^ 2 = 1)
    (hb : b.1 ^ 2 + b.2 ^ 2 = 1) : b.1 * a.1 + b.2 * a.2 ≤ 1 := by
  nlinarith [sq_nonneg (a.1 - b.1), sq_nonneg (a.2 - b.2)]

theorem list_sum_nonneg_of (l : List ℝ) (h : ∀ x ∈ l, 0 ≤ x) : 0 ≤ l.sum := by
  induction l with
  | nil => simp
  | cons a t ih =>
    rw [List.sum_cons]
    have := h a (by simp)
    have := ih (fun x hx => h x (by simp [hx]))
    linarith

theorem list_sum_le_length (l : List ℝ) (h : ∀ x ∈ l, x ≤ 1) :
    l.sum ≤ (l.length : ℝ) := by
  induction l with
  | nil => simp
  | cons a t ih =>
    rw [List.sum_cons, List.length_cons]
    have := h a (by simp)
    have := ih (fun x hx => h x (by simp [hx]))
    push_cast
    linarith

theorem consistencyOf_bounds (directions : List RPoint)
    (hunit : ∀ d ∈ directions, d.1 ^ 2 + d.2 ^ 2 = 1) :
    0 ≤ consistencyOf directions ∧ consistencyOf directions ≤ 1 := by
  unfold consistencyOf
  split_ifs with h1 h2
  · norm_num
  · have hmem : ∀ x ∈ (directions.zip directions.tail).map
        (fun pr => max 0 (pr.2.1 * pr.1.1 + pr.2.2 * pr.1.2)), 0 ≤ x ∧ x ≤ 1 := by
      intro x hx
      rcases List.mem_map.1 hx with ⟨pr, hpr, rfl⟩
      have hab := List.of_mem_zip hpr
      have ha := hunit pr.1 hab.1
      have hb := hunit pr.2 (List.mem_of_mem_tail hab.2)
      constructor
      · exact le_max_left _ _
      · exact max_le (by norm_num) (unit_dot_le_one pr.1 pr.2 ha hb)
    constructor
    · apply div_nonneg
      · exact list_sum_nonneg_of _ (fun x hx => (hmem x hx).1)
      · positivity
    · rw [div_le_one (by exact_mod_cast h2)]
      exact list_sum_le_length _ (fun x hx => (hmem x hx).2)
  · norm_num

theorem consistency_bounds (positions : List RPoint) :
    0 ≤ calculate_direction_consistency positions ∧
    calculate_direction_consistency positions ≤ 1 := by
  unfold calculate_direction_consistency
  split_ifs with h
  · norm_num
  · apply consistencyOf_bounds
    intro d hd
    rcases List.mem_filterMap.1 hd with ⟨i, _, hfi⟩
    exact dirAt_unit positions i d hfi

/-- C4: for two candidate evaluations identical except for the distance to
the lane — one at 5 units, one at 40 units — with the same alignment (a
candidate's alignment lies in [0.3, 1]: it passed the 0.3 cutoff and is an
absolute dot product of unit vectors) and the same direction-consistency
(computed from the same position history), the computed probability at 5
units strictly exceeds the probability at 40 units. -/
theorem lane_probability_distance_mono (positions : List RPoint) (a : ℝ)
    (h1 : 3 / 10 ≤ a) (h2 : a ≤ 1) :
    calculate_lane_probability positions 40 a <
      calculate_lane_probability positions 5 a := by
  obtain ⟨hc0, hc1⟩ := consistency_bounds positions
  set c := calculate_direction_consistency positions with hc
  unfold calculate_lane_probability lane_prob_base
  rw [if_neg (by norm_num : ¬ (40 : ℝ) < 15), if_pos (by norm_num : (5 : ℝ) < 15)]
  rw [show max (0 : ℝ) (1 - 40 / 50) = 1 / 5 from by rw [max_eq_right] <;> norm_num]
  rw [show max (0 : ℝ) (1 - 5 / 50) = 9 / 10 from by rw [max_eq_right] <;> norm_num]
  rw [← hc]
  have h40 : a * (1 / 5) * (1 / 2 + 1 / 2 * c) ≤ 1 / 5 := by nlinarith
  rw [min_eq_right (by linarith : a * (1 / 5) * (1 / 2 + 1 / 2 * c) ≤ 1)]
  apply lt_min
  · linarith
  · nlinarith

theorem lane_probability_distance_mono_witness :
    (3 / 10 : ℝ) ≤ 1 ∧ (1 : ℝ) ≤ 1 ∧
    calculate_lane_probability [] 40 1 < calculate_lane_probability [] 5 1 :=
  ⟨by norm_num, le_refl 1,
   lane_probability_distance_mono [] 1 (by norm_num) (le_refl 1)⟩

end Predictor

namespace LaneMgr

/-- Euclidean length of one polyline segment. -/
def segLen (p q : RPoint) : ℝ := Real.sqrt ((q.1 - p.1) ^ 2 + (q.2 - p.2) ^ 2)

/-- `shapely.LineString(coords).length`: the sum of the segment lengths. -/
def totalLength : List RPoint → ℝ
  | p :: q :: rest => segLen p q + totalLength (q :: rest)
  | _ => 0

/-- `linestring.interpolate(t)`: walk the segments by arc length; clamp
below 0 to the first point and beyond the total length to the last
point; linear interpolation inside the containing segment. -/
def interpolate : List RPoint → ℝ → RPoint
  | [], _ => (0, 0)
  | [p], _ => p
  | p :: q :: rest, t =>
    if t ≤ 0 then p
    else if t ≤ segLen p q then
      (p.1 + t / segLen p q * (q.1 - p.1), p.2 + t / segLen p q * (q.2 - p.2))
    else interpolate (q :: rest) (t - segLen p q)

/-- The sampling loop of `LaneManager.get_path_along_lane`: `num_points`
iterations at most; each appends `interpolate(min(start + i*step, L))`
and breaks once the sampled progress reaches `max_progress`. -/
def samplePoints (coords : List RPoint) (L start step maxp : ℝ) :
    ℕ → ℕ → List RPoint
  | 0, _ => []
  | n + 1, i =>
    if maxp ≤ min (start + (i : ℝ) * step) L then
      [interpolate coords (min (start + (i : ℝ) * step) L)]
    else
      interpolate coords (min (start + (i : ℝ) * step) L) ::
        samplePoints coords L start step maxp n (i + 1)

/-- `LaneManager.get_path_along_lane`: empty when the start progress is at
or past the lane's length, or when the clamped end progress does not
exceed the start; otherwise up to `num_points` samples at equal arc-length
steps (the `try/except` cannot fire: every operation here is total). -/
def get_path_along_lane (coords : List RPoint) (start_progress distance : ℝ)
    (num_points : ℕ := 8) : List RPoint :=
  if totalLength coords ≤ start_progress then []
  else if min (start_progress + distance) (totalLength coords) ≤ start_progress then []
  else
    samplePoints coords (totalLength coords) start_progress
      ((min (start_progress + distance) (totalLength coords) - start_progress) /
        ((max 1 (num_points - 1) : ℕ) : ℝ))
      (min (start_progress + distance) (totalLength coords)) num_points 0

theorem segLen_nonneg (p q : RPoint) : 0 ≤ segLen p q := Real.sqrt_nonneg _

theorem segLen_eq_zero (p q : RPoint) (h : segLen p q = 0) : q = p := by
  unfold segLen at h
  have hsum : (q.1 - p.1) ^ 2 + (q.2 - p.2) ^ 2 = 0 := by
    have := Real.sqrt_eq_zero (by positivity :
      (0 : ℝ) ≤ (q.1 - p.1) ^ 2 + (q.2 - p.2) ^ 2) |>.1 h
    exact this
  have h1 : q.1 = p.1 := by nlinarith [sq_nonneg (q.1 - p.1), sq_nonneg (q.2 - p.2)]
  have h2 : q.2 = p.2 := by nlinarith [sq_nonneg (q.1 - p.1), sq_nonneg (q.2 - p.2)]
  exact Prod.ext h1 h2

theorem totalLength_nonneg : ∀ l : List RPoint, 0 ≤ totalLength l := by
  intro l
  induction l with
  | nil => exact le_refl 0
  | cons p tl ih =>
    cases tl with
    | nil => exact le_refl 0
    | cons q rest =>
      have h1 := segLen_nonneg p q
      have : totalLength (p :: q :: rest) = segLen p q + totalLength (q :: rest) := rfl
      rw [this]
      have h2 : 0 ≤ totalLength (q :: rest) := ih
      linarith

theorem getLastD_zero_length : ∀ (rest : List RPoint) (q : RPoint),
    totalLength (q :: rest) ≤ 0 → (q :: rest).getLastD (0, 0) = q := by
  intro rest
  induction rest with
  | nil => intro q _; rfl
  | cons r rest ih =>
    intro q h
    have hT : totalLength (q :: r :: rest) = segLen q r + totalLength (r :: rest) := rfl
    rw [hT] at h
    have h1 := segLen_nonneg q r
    have h2 := totalLength_nonneg (r :: rest)
    have hseg : segLen q r = 0 := by linarith
    have hqr : r = q := segLen_eq_zero q r hseg
    have : (q :: r :: rest).getLastD (0, 0) = (r :: rest).getLastD (0, 0) := rfl
    rw [this, ih r (by linarith), hqr]

theorem interpolate_zero (l : List RPoint) (h : l ≠ []) :
    interpolate l 0 = l.headD (0, 0) := by
  match l with
  | [p] => rfl
  | p :: q :: rest =>
    show interpolate (p :: q :: rest) 0 = p
    rw [interpolate, if_pos (le_refl 0)]

theorem interpolate_total : ∀ l : List RPoint, l ≠ [] → ∀ t : ℝ, 0 < t →
    totalLength l ≤ t → interpolate l t = l.getLastD (0, 0) := by
  intro l
  induction l with
  | nil => intro h; exact absurd rfl h
  | cons p tl ih =>
    intro _ t ht htot
    cases tl with
    | nil => rfl
    | cons q rest =>
      have hT : totalLength (p :: q :: rest) = segLen p q + totalLength (q :: rest) := rfl
      rw [hT] at htot
      have hrest := totalLength_nonneg (q :: rest)
      have hseg := segLen_nonneg p q
      rw [interpolate, if_neg (by linarith : ¬ t ≤ 0)]
      by_cases hts : t ≤ segLen p q
      · rw [if_pos hts]
        have hTz : totalLength (q :: rest) ≤ 0 := by linarith
        have hteq : t = segLen p q := by linarith
        have hne : segLen p q ≠ 0 := by rw [← hteq]; exact ne_of_gt ht
        have hlast : (p :: q :: rest).getLastD (0, 0) = q := by
          have hstep : (p :: q :: rest).getLastD (0, 0) = (q :: rest).getLastD (0, 0) := rfl
          rw [hstep, getLastD_zero_length rest q hTz]
        rw [hlast, hteq, div_self hne]
        cases q with
        | mk q1 q2 => simp
      · rw [if_neg hts]
        have hstep : (p :: q :: rest).getLastD (0, 0) = (q :: rest).getLastD (0, 0) := rfl
        rw [hstep]
        exact ih (by simp) (t - segLen p q) (by linarith) (by linarith)

theorem samplePoints_eq_map (coords : List RPoint) (L start step maxp : ℝ) :
    ∀ (n i : ℕ), 0 < n →
      (∀ j : ℕ, j + 1 < n → min (start + ((i + j : ℕ) : ℝ) * step) L < maxp) →
      maxp ≤ min (start + ((i + (n - 1) : ℕ) : ℝ) * step) L →
      samplePoints coords L start step maxp n i =
        (List.range n).map
          (fun j => interpolate coords (min (start + ((i + j : ℕ) : ℝ) * step) L)) := by
  intro n
  induction n with
  | zero => intro i h; omega
  | succ m ih =>
    intro i _ hmid hlast
    by_cases hm : m = 0
    · subst hm
      have h0 : maxp ≤ min (start + (i : ℝ) * step) L := by
        have : (i + (1 - 1) : ℕ) = i := by omega
        rw [this] at hlast
        exact hlast
      rw [samplePoints, if_pos h0]
      have : ((List.range 1).map
          (fun j => interpolate coords (min (start + ((i + j : ℕ) : ℝ) * step) L))) =
          [interpolate coords (min (start + ((i + 0 : ℕ) : ℝ) * step) L)] := rfl
      rw [this]
      have hi0 : (i + 0 : ℕ) = i := by omega
      rw [hi0]
    · have hm1 : 0 < m := by omega
      have hbreak : min (start + (i : ℝ) * step) L < maxp := by
        have h0 := hmid 0 (by omega)
        have : (i + 0 : ℕ) = i := by omega
        rw [this] at h0
        exact h0
      rw [samplePoints, if_neg (not_le.2 hbreak)]
      rw [ih (i + 1) hm1 ?hmid ?hlast]
      case hmid =>
        intro j hj
        have h := hmid (j + 1) (by omega)
        have : (i + (j + 1) : ℕ) = (i + 1 + j : ℕ) := by omega
        rw [this] at h
        exact h
      case hlast =>
        have : (i + (m + 1 - 1) : ℕ) = (i + 1 + (m - 1) : ℕ) := by omega
        rw [this] at hlast
        exact hlast
      rw [List.range_succ_eq_map, List.map_cons, List.map_map]
      have hi0 : (i + 0 : ℕ) = i := by omega
      rw [hi0]
      congr 1
      apply List.map_congr_left
      intro j _
      have : (i + 1 + j : ℕ) = (i + Nat.succ j : ℕ) := by omega
      rw [Function.comp_apply, this]

theorem getLast?_eq_getLastD (l : List RPoint) (h : l ≠ []) :
    l.getLast? = some (l.getLastD (0, 0)) := by
  induction l with
  | nil => exact absurd rfl h
  | cons a t ih =>
    cases t with
    | nil => rfl
    | cons b t2 =>
      rw [List.getLast?_cons_cons, ih (by simp)]
      rfl

/-- C5: for a lane polyline with positive total arc length, sampling
returns the empty sequence when the start progress is at or beyond the
total length or when the clamped end progress does not exceed the start;
and sampling the whole lane (`start = 0`, `distance = totalLength`) with
`numPoints = 8` returns exactly 8 points whose first equals the lane's
first point and whose last equals the lane's last point (exactly, in the
real-number model). -/
theorem get_path_along_lane_spec (coords : List RPoint) (h2 : 2 ≤ coords.length)
    (hL : 0 < totalLength coords) :
    (∀ s d : ℝ, totalLength coords ≤ s → get_path_along_lane coords s d 8 = []) ∧
    (∀ s d : ℝ, min (s + d) (totalLength coords) ≤ s →
      get_path_along_lane coords s d 8 = []) ∧
    (get_path_along_lane coords 0 (totalLength coords) 8).length = 8 ∧
    (get_path_along_lane coords 0 (totalLength coords) 8).head? = coords.head? ∧
    (get_path_along_lane coords 0 (totalLength coords) 8).getLast? = coords.getLast? := by
  have hne : coords ≠ [] := by
    intro hc
    rw [hc] at h2
    simp at h2
  set L := totalLength coords with hLdef
  have hstep7 : ((max 1 (8 - 1) : ℕ) : ℝ) = 7 := by norm_num
  have hfull : get_path_along_lane coords 0 L 8 =
      (List.range 8).map
        (fun j => interpolate coords (min (((0 : ℕ) + j : ℕ) * (L / 7)) L)) := by
    rw [get_path_along_lane, if_neg (by linarith : ¬ L ≤ 0),
      if_neg (by rw [zero_add, min_self]; exact not_le.2 hL)]
    rw [zero_add, min_self, sub_zero, hstep7]
    have := samplePoints_eq_map coords L 0 (L / 7) L 8 0 (by omega)
      (by
        intro j hj
        have hj6 : (j : ℝ) ≤ 6 := by
          have : j ≤ 6 := by omega
          exact_mod_cast this
        have hlt : ((0 + j : ℕ) : ℝ) * (L / 7) < L := by
          push_cast
          nlinarith
        calc min (0 + ((0 + j : ℕ) : ℝ) * (L / 7)) L ≤ 0 + ((0 + j : ℕ) : ℝ) * (L / 7) :=
              min_le_left _ _
        _ < L := by rw [zero_add]; exact hlt)
      (by
        have h7 : ((0 + (8 - 1) : ℕ) : ℝ) * (L / 7) = L := by
          push_cast
          ring
        rw [zero_add, h7, min_self])
    rw [this]
    apply List.map_congr_left
    intro j _
    rw [zero_add]
  refine ⟨?_, ?_, ?_, ?_, ?_⟩
  · intro s d hs
    rw [get_path_along_lane, if_pos hs]
  · intro s d hs
    by_cases hLs : L ≤ s
    · rw [get_path_along_lane, if_pos hLs]
    · rw [get_path_along_lane, if_neg hLs, if_pos hs]
  · rw [hfull]
    simp
  · rw [hfull]
    have hr8 : List.range 8 = [0, 1, 2, 3, 4, 5, 6, 7] := by decide
    rw [hr8, List.map_cons]
    have h00 : (((0 : ℕ) + (0 : ℕ) : ℕ) : ℝ) * (L / 7) = 0 := by push_cast; ring
    rw [List.head?_cons]
    rw [h00, min_eq_left (le_of_lt hL), interpolate_zero coords hne]
    cases coords with
    | nil => exact absurd rfl hne
    | cons a t => rfl
  · rw [hfull]
    have hr8 : List.range 8 = [0, 1, 2, 3, 4, 5, 6, 7] := by decide
    rw [hr8]
    have h7L : (((0 : ℕ) + (7 : ℕ) : ℕ) : ℝ) * (L / 7) = L := by push_cast; ring
    have hlast : (([0, 1, 2, 3, 4, 5, 6, 7] : List ℕ).map
        (fun j => interpolate coords (min ((((0 : ℕ) + j : ℕ) : ℝ) * (L / 7)) L))).getLast? =
        some (interpolate coords (min ((((0 : ℕ) + (7 : ℕ) : ℕ) : ℝ) * (L / 7)) L)) := rfl
    rw [hlast, h7L, min_self]
    rw [interpolate_total coords hne L hL (le_refl L)]
    exact (getLast?_eq_getLastD coords hne).symm

/-- The two-point lane used by the C5 witness. -/
def wlane : List RPoint := [(0, 0), (1, 0)]

theorem wlane_totalLength : totalLength wlane = 1 := by
  show segLen (0, 0) (1, 0) + 0 = 1
  rw [segLen]
  norm_num

theorem get_path_along_lane_spec_witness :
    2 ≤ wlane.length ∧ 0 < totalLength wlane ∧
    (get_path_along_lane wlane 0 (totalLength wlane) 8).length = 8 ∧
    get_path_along_lane wlane 2 1 8 = [] :=
  ⟨by decide,
   by rw [wlane_totalLength]; norm_num,
   ((get_path_along_lane_spec wlane (by decide)
      (by rw [wlane_totalLength]; norm_num)).2.2).1,
   (get_path_along_lane_spec wlane (by decide)
      (by rw [wlane_totalLength]; norm_num)).1 2 1
      (by rw [wlane_totalLength]; norm_num)⟩

end LaneMgr

end
